import Mathlib

/-!
Shallow embedding of the Cpp-stream library (files src/stream.h and
src/stream_utils.h of the repository).

The library is a pull-based lazy sequence library.  Every generator class
exposes `std::optional<value_type> operator()()` (one pull: next value or
end-of-sequence) and a copy constructor used by every terminal operation to
duplicate the stored generator before consuming it.  We model each generator
class as a state structure together with a `GenM` record holding its `pull`
step function and its `copy` function, both transcribed from the C++ class.
C++ iterators into an owned vector are modelled as an index into a Lean list.
Terminal operations that loop until exhaustion are modelled with an explicit
fuel argument bounding the number of pulls; theorems assume the fuel is at
least the number of pulls the loop actually performs.
-/

namespace CppStream

/-- A pull-based generator over state type `σ` producing values of type `T`:
`pull` models `operator()` (returns the next value or `none` together with the
updated state), `copy` models the class's copy constructor. -/
structure GenM (σ : Type) (T : Type) where
  pull : σ → Option T × σ
  copy : σ → σ

/-- State of `internal::ContainerGenerator`: the owned container and the
cursor `current_`, modelled as an index (`end_` is the container's length). -/
structure ContainerGen (T : Type) where
  container : List T
  current : Nat

/-- `internal::ContainerGenerator`: `operator()` returns `nullopt` when the
cursor reached the end, otherwise the current element, advancing the cursor.
The copy constructor copies the container and resets the cursor to
`container_.cbegin()`, i.e. index 0. -/
def containerGenM (T : Type) : GenM (ContainerGen T) T where
  pull s :=
    match s.container[s.current]? with
    | some v => (some v, ⟨s.container, s.current + 1⟩)
    | none => (none, s)
  copy s := ⟨s.container, 0⟩

/-- State of `internal::PackGenerator`: the owned vector (filled back-to-front
by the pack constructor of `Stream`, hence stored in reverse order) and the
reverse-iterator cursor `current_`, modelled as an offset from `crbegin()`. -/
structure PackGen (T : Type) where
  container : List T
  current : Nat

/-- `internal::PackGenerator`: `operator()` walks the stored vector through
reverse iterators, so it reads `container_` back to front.  The copy
constructor is `= default`, which copies the members as they are (the cursor
offset is preserved, not reset). -/
def packGenM (T : Type) : GenM (PackGen T) T where
  pull s :=
    match s.container.reverse[s.current]? with
    | some v => (some v, ⟨s.container, s.current + 1⟩)
    | none => (none, s)
  copy s := s

/-- `PackGenerator::push_back`: appends the value to the stored vector and
resets `current_` to `crbegin()` and `end_` to `crend()`. -/
def PackGen.push {T : Type} (s : PackGen T) (v : T) : PackGen T :=
  ⟨s.container ++ [v], 0⟩

/-- State of `internal::InfiniteGenerator`: the wrapped zero-argument value
callable.  A deterministic callable (possibly with internal mutable state) is
modelled by the sequence `fn` of its return values together with the number
`calls` of invocations made so far (the callable's internal state). -/
structure InfiniteGen (T : Type) where
  fn : Nat → T
  calls : Nat

/-- `internal::InfiniteGenerator`: `operator()` always invokes the callable
and wraps the result in an engaged optional.  The copy constructor is
`= default`: it copies the callable together with its internal state. -/
def infiniteGenM (T : Type) : GenM (InfiniteGen T) T where
  pull s := (some (s.fn s.calls), ⟨s.fn, s.calls + 1⟩)
  copy s := s

/-- State of `internal::SkipGenerator`: parent generator state, the constant
`amount_to_skip_` and the `skipped_` flag. -/
structure SkipGen (σ : Type) where
  parent : σ
  amountToSkip : Nat
  skipped : Bool

/-- The skip loop of `SkipGenerator::operator()`:
`while (i < amount_to_skip_ && (opt = parent_gen_())) ++i;`.
Returns whether all requested values were successfully pulled and discarded,
together with the parent state after the loop. -/
def skipPulls {σ T : Type} (G : GenM σ T) : Nat → σ → Bool × σ
  | 0, s => (true, s)
  | n + 1, s =>
    match G.pull s with
    | (some _, s2) => skipPulls G n s2
    | (none, s2) => (false, s2)

/-- `internal::SkipGenerator`: on the first pull (flag unset) it runs the
skip loop, sets the flag, and returns `nullopt` if the parent exhausted during
the skip, otherwise one further parent pull.  Afterwards every pull delegates
directly to the parent.  The copy constructor is `= default`: it copies the
parent (via the parent's copy constructor) and the counter and flag. -/
def skipGenM {σ T : Type} (G : GenM σ T) : GenM (SkipGen σ) T where
  pull s :=
    if s.skipped then
      let r := G.pull s.parent
      (r.1, ⟨r.2, s.amountToSkip, true⟩)
    else
      match skipPulls G s.amountToSkip s.parent with
      | (true, p2) =>
        let r := G.pull p2
        (r.1, ⟨r.2, s.amountToSkip, true⟩)
      | (false, p2) => (none, ⟨p2, s.amountToSkip, true⟩)
  copy s := ⟨G.copy s.parent, s.amountToSkip, s.skipped⟩

/-- State of `internal::GetGenerator`: parent generator state, the constant
`amount_to_get_` and the counter `amount_got_`. -/
structure GetGen (σ : Type) where
  parent : σ
  amountToGet : Nat
  amountGot : Nat

/-- `internal::GetGenerator`: returns `nullopt` once `amount_got_` values were
already returned; otherwise increments the counter and delegates one pull to
the parent (even if the parent itself returns `nullopt` — it never retries).
The copy constructor is `= default`. -/
def getGenM {σ T : Type} (G : GenM σ T) : GenM (GetGen σ) T where
  pull s :=
    if s.amountToGet ≤ s.amountGot then (none, s)
    else
      let r := G.pull s.parent
      (r.1, ⟨r.2, s.amountToGet, s.amountGot + 1⟩)
  copy s := ⟨G.copy s.parent, s.amountToGet, s.amountGot⟩

/-- State of `internal::GroupGenerator`: parent generator state and the
constant `group_size_`. -/
structure GroupGen (σ : Type) where
  parent : σ
  groupSize : Nat

/-- The accumulation loop of `GroupGenerator::operator()` after the first
value was pushed: `while (i < group_size_ && (opt = parent_gen_()))` — the
fuel argument is the remaining capacity `group_size_ - i`. -/
def groupLoop {σ T : Type} (G : GenM σ T) : Nat → σ → List T → List T × σ
  | 0, s, acc => (acc, s)
  | n + 1, s, acc =>
    match G.pull s with
    | (some v, s2) => groupLoop G n s2 (acc ++ [v])
    | (none, s2) => (acc, s2)

/-- `internal::GroupGenerator`: pulls the parent once; on `nullopt` returns
`nullopt` (no empty group), otherwise accumulates further parent values with
the do-while loop until `group_size_` elements are collected or the parent
exhausts, and returns the group.  Note the do-while structure: with
`group_size_ == 0` the loop body still runs once, so a group of one element is
produced.  The copy constructor is `= default`. -/
def groupGenM {σ T : Type} (G : GenM σ T) : GenM (GroupGen σ) (List T) where
  pull s :=
    match G.pull s.parent with
    | (none, p2) => (none, ⟨p2, s.groupSize⟩)
    | (some v, p2) =>
      let r := groupLoop G (s.groupSize - 1) p2 [v]
      (some r.1, ⟨r.2, s.groupSize⟩)
  copy s := ⟨G.copy s.parent, s.groupSize⟩

/-- State of `internal::MapGenerator` (the transform is a pure function,
passed to `mapGenM` directly). -/
structure MapGen (σ : Type) where
  parent : σ

/-- `internal::MapGenerator`: pulls the parent once; on a value applies the
transform, on `nullopt` returns `nullopt` without invoking the transform. -/
def mapGenM {σ T U : Type} (G : GenM σ T) (f : T → U) : GenM (MapGen σ) U where
  pull s :=
    match G.pull s.parent with
    | (none, p2) => (none, ⟨p2⟩)
    | (some v, p2) => (some (f v), ⟨p2⟩)
  copy s := ⟨G.copy s.parent⟩

/-- The consumption loop shared by `operator|(to_vector&&)` and
`operator|(print_to&&)`: pull until `nullopt`, collecting the values in pull
order.  `fuel` bounds the number of pulls. -/
def runCollect {σ T : Type} (G : GenM σ T) : Nat → σ → List T × σ
  | 0, s => ([], s)
  | fuel + 1, s =>
    match G.pull s with
    | (none, s2) => ([], s2)
    | (some v, s2) =>
      let r := runCollect G fuel s2
      (v :: r.1, r.2)

/-- The pattern shared by every terminal `operator|` overload of `Stream`:
`StreamGenerator gen(generator_);` — the stored generator is copied via its
copy constructor and only the copy is consumed, so the stream's stored
generator state is returned unchanged alongside the result. -/
def runTerminal {σ T R : Type} (G : GenM σ T) (consume : σ → R) (s : σ) :
    R × σ :=
  (consume (G.copy s), s)

/-- `Stream::operator|(to_vector&&)`: copy the stored generator, pull the copy
until exhaustion, return the collected values (stream state unchanged). -/
def toVectorOp {σ T : Type} (G : GenM σ T) (fuel : Nat) (s : σ) :
    List T × σ :=
  runTerminal G (fun g => (runCollect G fuel g).1) s

/-- Error message class of `operator|(nth&&)` when the stream exhausts before
index `n` is reached. -/
def insufficientMsg : String := "Stream does not contain enough elements to perform operation nth."

/-- Error message class of `operator|(reduce&&)` on an empty stream. -/
def emptyMsg : String := "Operation reduce cannot be performed on empty stream."

/-- The loop of `Stream::operator|(nth&&)`:
`while (i <= n && (opt = gen())) ++i;` followed by the exhaustion check.
The argument is the index `n` (so `n + 1` successful pulls are required);
returns the result (value or the insufficient-elements error) together with
the number of pulls performed. -/
def nthGo {σ T : Type} (G : GenM σ T) : Nat → σ → Except String T × Nat
  | 0, s =>
    match G.pull s with
    | (some v, _) => (Except.ok v, 1)
    | (none, _) => (Except.error insufficientMsg, 1)
  | n + 1, s =>
    match G.pull s with
    | (some _, s2) =>
      let r := nthGo G n s2
      (r.1, r.2 + 1)
    | (none, _) => (Except.error insufficientMsg, 1)

/-- `Stream::operator|(nth&&)`: copies the stored generator and runs the nth
loop on the copy; the stream's stored generator state is unchanged. -/
def nthOp {σ T : Type} (G : GenM σ T) (n : Nat) (s : σ) :
    (Except String T × Nat) × σ :=
  runTerminal G (fun g => nthGo G n g) s

/-- The accumulation loop of `Stream::operator|(reduce&&)`:
`while (opt = gen()) result = accumulator(result, opt.value());`. -/
def reduceLoop {σ T U : Type} (G : GenM σ T) (acc : U → T → U) :
    Nat → σ → U → U
  | 0, _, r => r
  | fuel + 1, s, r =>
    match G.pull s with
    | (none, _) => r
    | (some v, s2) => reduceLoop G acc fuel s2 (acc r v)

/-- Body of `Stream::operator|(reduce&&)` on the duplicated generator: a first
pull decides between the empty-stream error and seeding with
`identity(first)`, then the accumulation loop folds the remaining values. -/
def reduceGo {σ T U : Type} (G : GenM σ T) (ident : T → U) (acc : U → T → U)
    (fuel : Nat) (g : σ) : Except String U :=
  match G.pull g with
  | (none, _) => Except.error emptyMsg
  | (some v, s2) => Except.ok (reduceLoop G acc fuel s2 (ident v))

/-- `Stream::operator|(reduce&&)`: copies the stored generator and consumes
the copy; the stream's stored generator state is unchanged. -/
def reduceOp {σ T U : Type} (G : GenM σ T) (ident : T → U) (acc : U → T → U)
    (fuel : Nat) (s : σ) : Except String U × σ :=
  runTerminal G (fun g => reduceGo G ident acc fuel g) s

/-- The finiteness tag `StreamTag` of `stream.h`. -/
inductive StreamTag where
  | Finite
  | Infinite
deriving DecidableEq

/-- The five pipeline combinators accepted by `Stream::operator|` overloads
that return a new `Stream` (`get` is the source's name for take). -/
inductive Combinator where
  | skip
  | get
  | filter
  | map
  | group
deriving DecidableEq

/-- The finiteness tag of the `Stream` returned by each combinator overload,
transcribed from the return types of the `operator|` declarations:
`skip`, `filter`, `group` and `map` return `Stream<..., Tag>` while `get`
returns `Stream<..., StreamTag::Finite>`. -/
def combinatorTag : Combinator → StreamTag → StreamTag
  | Combinator.get, _ => StreamTag.Finite
  | Combinator.skip, t => t
  | Combinator.filter, t => t
  | Combinator.map, t => t
  | Combinator.group, t => t

/-- The five terminal `operator|` overloads of `Stream`. -/
inductive TerminalOp where
  | print_to
  | nth
  | reduce
  | to_vector
  | sum
deriving DecidableEq

/-- Whether the terminal overload carries
`static_assert(Tag == StreamTag::Finite, ...)`, transcribed from the source:
`print_to`, `reduce`, `to_vector` and `sum` do; `nth` does not. -/
def requiresFinite : TerminalOp → Bool
  | TerminalOp.print_to => true
  | TerminalOp.nth => false
  | TerminalOp.reduce => true
  | TerminalOp.to_vector => true
  | TerminalOp.sum => true

/-- A terminal overload compiles on a stream of the given tag iff the tag is
`Finite` or the overload has no finiteness `static_assert`. -/
def compiles (t : StreamTag) (op : TerminalOp) : Bool :=
  t = StreamTag.Finite || !requiresFinite op

/-- `Stream::operator|(group&&)` builds the stream over GroupGenerator with
the stored group size; the `group` constructor performs no check (its assert
is commented out), so this runs with any size including 0. -/
def groupStreamCollect {T : Type} (l : List T) (g fuel : Nat) :
    List (List T) :=
  (toVectorOp (groupGenM (containerGenM T)) fuel ⟨⟨l, 0⟩, g⟩).1

/-- Reference chunking of a list: first element plus up to `g - 1` further
elements per chunk, mirroring the do-while batching of
`GroupGenerator::operator()`. -/
def chunks {T : Type} (g : Nat) : List T → List (List T)
  | [] => []
  | x :: xs => (x :: xs.take (g - 1)) :: chunks g (xs.drop (g - 1))
termination_by l => l.length
decreasing_by simp; omega

-- Pull-equation lemmas (definitional unfoldings of the `pull` functions)

theorem container_pull {T : Type} (l : List T) (i : Nat) :
    (containerGenM T).pull ⟨l, i⟩ =
      match l[i]? with
      | some v => (some v, ⟨l, i + 1⟩)
      | none => (none, ⟨l, i⟩) := rfl

theorem infinite_pull {T : Type} (f : Nat → T) (c : Nat) :
    (infiniteGenM T).pull ⟨f, c⟩ = (some (f c), ⟨f, c + 1⟩) := rfl

theorem get_pull {σ T : Type} (G : GenM σ T) (p : σ) (k g : Nat) :
    (getGenM G).pull ⟨p, k, g⟩ =
      if k ≤ g then (none, ⟨p, k, g⟩)
      else ((G.pull p).1, ⟨(G.pull p).2, k, g + 1⟩) := rfl

theorem skip_pull_skipped {σ T : Type} (G : GenM σ T) (p : σ) (k : Nat) :
    (skipGenM G).pull ⟨p, k, true⟩ =
      ((G.pull p).1, ⟨(G.pull p).2, k, true⟩) := rfl

theorem skip_pull_fresh {σ T : Type} (G : GenM σ T) (p : σ) (k : Nat) :
    (skipGenM G).pull ⟨p, k, false⟩ =
      match skipPulls G k p with
      | (true, p2) => ((G.pull p2).1, ⟨(G.pull p2).2, k, true⟩)
      | (false, p2) => (none, ⟨p2, k, true⟩) := rfl

theorem group_pull {σ T : Type} (G : GenM σ T) (p : σ) (g : Nat) :
    (groupGenM G).pull ⟨p, g⟩ =
      match G.pull p with
      | (none, p2) => (none, ⟨p2, g⟩)
      | (some v, p2) =>
        (some (groupLoop G (g - 1) p2 [v]).1,
          ⟨(groupLoop G (g - 1) p2 [v]).2, g⟩) := rfl

-- Indexing helpers

theorem getElem_some_facts {T : Type} {l : List T} {i : Nat} {v : T}
    (h : l[i]? = some v) : i < l.length ∧ l.drop i = v :: l.drop (i + 1) := by
  have hlt : i < l.length := by
    by_contra hc
    rw [List.getElem?_eq_none_iff.mpr (Nat.le_of_not_lt hc)] at h
    exact Option.noConfusion h
  have hv : l[i] = v := by
    have h2 := List.getElem?_eq_getElem hlt
    rw [h2] at h
    exact Option.some.inj h
  exact ⟨hlt, by rw [List.drop_eq_getElem_cons hlt, hv]⟩

theorem getElem_none_drop {T : Type} {l : List T} {i : Nat}
    (h : l[i]? = none) : l.drop i = [] :=
  List.drop_eq_nil_of_le (List.getElem?_eq_none_iff.mp h)

theorem drop_min_length {T : Type} (t : List T) (n : Nat) :
    t.drop (min n t.length) = t.drop n := by
  rcases Nat.le_total n t.length with h | h
  · rw [Nat.min_eq_left h]
  · rw [Nat.min_eq_right h, List.drop_length, List.drop_eq_nil_of_le h]

-- Behaviour of collection over the container generator

theorem runCollect_container {T : Type} (fuel : Nat) (l : List T) (i : Nat) :
    (runCollect (containerGenM T) fuel ⟨l, i⟩).1 = (l.drop i).take fuel := by
  induction fuel generalizing i with
  | zero => simp [runCollect]
  | succ n ih =>
    cases h : l[i]? with
    | none =>
      simp [runCollect, container_pull, h, getElem_none_drop h]
    | some v =>
      have hdrop := (getElem_some_facts h).2
      simp [runCollect, container_pull, h, hdrop, ih]

theorem runCollect_container_full {T : Type} (fuel : Nat) (l : List T)
    (i : Nat) (hf : l.length - i ≤ fuel) :
    (runCollect (containerGenM T) fuel ⟨l, i⟩).1 = l.drop i := by
  rw [runCollect_container]
  exact List.take_of_length_le (by simp; omega)

-- Behaviour of the get (take) generator

theorem runCollect_get_container {T : Type} (fuel : Nat) (l : List T)
    (i k g : Nat) (hf : k - g + 1 ≤ fuel) :
    (runCollect (getGenM (containerGenM T)) fuel ⟨⟨l, i⟩, k, g⟩).1 =
      (l.drop i).take (k - g) := by
  induction fuel generalizing i g with
  | zero => omega
  | succ n ih =>
    by_cases hkg : k ≤ g
    · have h0 : k - g = 0 := by omega
      simp [runCollect, get_pull, hkg, h0]
    · cases h : l[i]? with
      | none =>
        simp [runCollect, get_pull, hkg, container_pull, h, getElem_none_drop h]
      | some v =>
        have hdrop := (getElem_some_facts h).2
        have hm : k - g = (k - (g + 1)) + 1 := by omega
        have hf2 : k - (g + 1) + 1 ≤ n := by omega
        simp [runCollect, get_pull, hkg, container_pull, h, hdrop, hm,
          ih _ _ hf2]

theorem runCollect_get_infinite {T : Type} (fuel : Nat) (f : Nat → T)
    (c k g : Nat) (hf : k - g + 1 ≤ fuel) :
    (runCollect (getGenM (infiniteGenM T)) fuel ⟨⟨f, c⟩, k, g⟩).1 =
      (List.range' c (k - g)).map f := by
  induction fuel generalizing c g with
  | zero => omega
  | succ n ih =>
    by_cases hkg : k ≤ g
    · have h0 : k - g = 0 := by omega
      simp [runCollect, get_pull, hkg, h0]
    · have hm : k - g = (k - (g + 1)) + 1 := by omega
      have hf2 : k - (g + 1) + 1 ≤ n := by omega
      simp [runCollect, get_pull, hkg, infinite_pull, hm, List.range'_succ,
        ih _ _ hf2]

-- Behaviour of the skip generator

theorem runCollect_skip_done {σ T : Type} (G : GenM σ T) (fuel : Nat)
    (p : σ) (k : Nat) :
    (runCollect (skipGenM G) fuel ⟨p, k, true⟩).1 =
      (runCollect G fuel p).1 := by
  induction fuel generalizing p with
  | zero => simp [runCollect]
  | succ n ih =>
    cases h : G.pull p with
    | mk o p2 =>
      cases o with
      | none => simp [runCollect, skip_pull_skipped, h]
      | some v => simp [runCollect, skip_pull_skipped, h, ih]

theorem skipPulls_container_le {T : Type} (k : Nat) (l : List T) (i : Nat)
    (h : i + k ≤ l.length) :
    skipPulls (containerGenM T) k ⟨l, i⟩ = (true, ⟨l, i + k⟩) := by
  induction k generalizing i with
  | zero => simp [skipPulls]
  | succ n ih =>
    have hlt : i < l.length := by omega
    have hv := List.getElem?_eq_getElem hlt
    rw [show i + (n + 1) = i + 1 + n from by omega]
    simpa [skipPulls, container_pull, hv] using ih (i + 1) (by omega)

theorem skipPulls_container_gt {T : Type} (k : Nat) (l : List T) (i : Nat)
    (hi : i ≤ l.length) (h : l.length < i + k) :
    skipPulls (containerGenM T) k ⟨l, i⟩ = (false, ⟨l, l.length⟩) := by
  induction k generalizing i with
  | zero => omega
  | succ n ih =>
    by_cases hlt : i < l.length
    · have hv := List.getElem?_eq_getElem hlt
      simpa [skipPulls, container_pull, hv] using
        ih (i + 1) (by omega) (by omega)
    · have hie : i = l.length := by omega
      have hn : l[i]? = none := List.getElem?_eq_none_iff.mpr (by omega)
      simp [skipPulls, container_pull, hn, hie]

theorem skip_drop {T : Type} (l : List T) (k fuel : Nat)
    (hf : l.length + 1 ≤ fuel) :
    (runCollect (skipGenM (containerGenM T)) fuel ⟨⟨l, 0⟩, k, false⟩).1 =
      l.drop k := by
  cases fuel with
  | zero => omega
  | succ m =>
    by_cases hk : k ≤ l.length
    · have hsp := skipPulls_container_le k l 0 (by omega)
      cases h : l[k]? with
      | none =>
        simp [runCollect, skip_pull_fresh, hsp, container_pull, h,
          getElem_none_drop h]
      | some v =>
        have hdrop := (getElem_some_facts h).2
        have hrest := runCollect_skip_done (containerGenM T) m ⟨l, k + 1⟩ k
        rw [runCollect_container_full m l (k + 1) (by omega)] at hrest
        simp [runCollect, skip_pull_fresh, hsp, container_pull, h, hdrop,
          hrest]
    · have hsp := skipPulls_container_gt k l 0 (by omega) (by omega)
      have hd : l.drop k = [] := List.drop_eq_nil_of_le (by omega)
      simp [runCollect, skip_pull_fresh, hsp, hd]

-- Behaviour of the group generator

theorem groupLoop_container {T : Type} (k : Nat) (l : List T) (i : Nat)
    (acc : List T) :
    groupLoop (containerGenM T) k ⟨l, i⟩ acc =
      (acc ++ (l.drop i).take k, ⟨l, i + ((l.drop i).take k).length⟩) := by
  induction k generalizing i acc with
  | zero => simp [groupLoop]
  | succ n ih =>
    cases h : l[i]? with
    | none =>
      simp [groupLoop, container_pull, h, getElem_none_drop h]
    | some v =>
      have hdrop := (getElem_some_facts h).2
      simp [groupLoop, container_pull, h, hdrop, ih]
      omega

theorem runCollect_group_container {T : Type} (fuel : Nat) (l : List T)
    (i g : Nat) (hf : l.length - i < fuel) :
    (runCollect (groupGenM (containerGenM T)) fuel ⟨⟨l, i⟩, g⟩).1 =
      chunks g (l.drop i) := by
  induction fuel generalizing i with
  | zero => omega
  | succ m ih =>
    cases h : l[i]? with
    | none =>
      simp [runCollect, group_pull, container_pull, h, getElem_none_drop h,
        chunks]
    | some v =>
      obtain ⟨hlt, hdrop⟩ := getElem_some_facts h
      have hloop := groupLoop_container (g - 1) l (i + 1) [v]
      set rest := l.drop (i + 1) with hrest
      have hlen : rest.length = l.length - (i + 1) := by simp [hrest]
      have htk : (rest.take (g - 1)).length = min (g - 1) rest.length := by
        simp
      have hidx : l.drop (i + 1 + min (g - 1) rest.length) =
          rest.drop (g - 1) := by
        rw [← drop_min_length rest (g - 1), hrest, List.drop_drop]
      have hih := ih (i + 1 + min (g - 1) rest.length) (by omega)
      rw [hidx] at hih
      simp only [runCollect, group_pull, container_pull, h, hloop, htk]
      rw [hdrop]
      simp [chunks, hih, ← hrest]

-- Properties of the reference chunking

theorem chunks_nil_iff {T : Type} (g : Nat) (l : List T) :
    chunks g l = [] ↔ l = [] := by
  cases l with
  | nil => simp [chunks]
  | cons x xs => simp [chunks]

theorem chunks_flatten {T : Type} (g : Nat) (n : Nat) (l : List T)
    (hn : l.length ≤ n) : (chunks g l).flatten = l := by
  induction n generalizing l with
  | zero =>
    have hl : l = [] := List.length_eq_zero.mp (by omega)
    subst hl
    simp [chunks]
  | succ m ih =>
    cases l with
    | nil => simp [chunks]
    | cons x xs =>
      have h2 : (xs.drop (g - 1)).length ≤ m := by
        simp only [List.length_drop]
        simp only [List.length_cons] at hn
        omega
      simp [chunks, ih _ h2]

theorem chunks_length {T : Type} (g : Nat) (hg : 1 ≤ g) (n : Nat)
    (l : List T) (hn : l.length ≤ n) :
    (chunks g l).length = (l.length + g - 1) / g := by
  induction n generalizing l with
  | zero =>
    have hl : l = [] := List.length_eq_zero.mp (by omega)
    subst hl
    simp [chunks, Nat.div_eq_of_lt (show g - 1 < g by omega)]
  | succ m ih =>
    cases l with
    | nil => simp [chunks, Nat.div_eq_of_lt (show g - 1 < g by omega)]
    | cons x xs =>
      have h2 : (xs.drop (g - 1)).length ≤ m := by
        simp only [List.length_drop]
        simp only [List.length_cons] at hn
        omega
      simp only [chunks, List.length_cons, ih _ h2, List.length_drop]
      rw [show xs.length + 1 + g - 1 = xs.length + g from by omega,
        Nat.add_div_right _ (show 0 < g by omega)]
      by_cases hge : g - 1 ≤ xs.length
      · rw [show xs.length - (g - 1) + g - 1 = xs.length from by omega]
      · rw [show xs.length - (g - 1) = 0 from by omega]
        rw [Nat.zero_add, Nat.div_eq_of_lt (show g - 1 < g by omega),
          Nat.div_eq_of_lt (show xs.length < g by omega)]

theorem chunks_mem {T : Type} (g : Nat) (hg : 1 ≤ g) (n : Nat) (l : List T)
    (hn : l.length ≤ n) :
    ∀ c ∈ chunks g l, c ≠ [] ∧ c.length ≤ g := by
  induction n generalizing l with
  | zero =>
    have hl : l = [] := List.length_eq_zero.mp (by omega)
    subst hl
    simp [chunks]
  | succ m ih =>
    cases l with
    | nil => simp [chunks]
    | cons x xs =>
      intro c hc
      simp only [chunks, List.mem_cons] at hc
      rcases hc with rfl | hc
      · refine ⟨by simp, ?_⟩
        simp only [List.length_cons, List.length_take]
        omega
      · have h2 : (xs.drop (g - 1)).length ≤ m := by
          simp only [List.length_drop]
          simp only [List.length_cons] at hn
          omega
        exact ih _ h2 c hc

theorem chunks_dropLast {T : Type} (g : Nat) (hg : 1 ≤ g) (n : Nat)
    (l : List T) (hn : l.length ≤ n) :
    ∀ c ∈ (chunks g l).dropLast, c.length = g := by
  induction n generalizing l with
  | zero =>
    have hl : l = [] := List.length_eq_zero.mp (by omega)
    subst hl
    simp [chunks]
  | succ m ih =>
    cases l with
    | nil => simp [chunks]
    | cons x xs =>
      have h2 : (xs.drop (g - 1)).length ≤ m := by
        simp only [List.length_drop]
        simp only [List.length_cons] at hn
        omega
      rw [show chunks g (x :: xs) =
          (x :: xs.take (g - 1)) :: chunks g (xs.drop (g - 1)) from by
        rw [chunks]]
      cases hr : chunks g (xs.drop (g - 1)) with
      | nil => simp
      | cons r rs =>
        intro c hc
        rw [List.dropLast_cons₂] at hc
        rcases List.mem_cons.mp hc with rfl | hc2
        · have hne : xs.drop (g - 1) ≠ [] := by
            intro hnil
            rw [hnil] at hr
            simp [chunks] at hr
          have hlt : g - 1 < xs.length := by
            rcases Nat.lt_or_ge (g - 1) xs.length with h | h
            · exact h
            · exact absurd (List.drop_eq_nil_of_le (by omega)) hne
          simp only [List.length_cons, List.length_take]
          omega
        · rw [← hr] at hc2
          exact ih _ h2 c hc2

-- Behaviour of the nth and reduce loops

theorem nthGo_spec {σ T : Type} (G : GenM σ T) (n : Nat) (s : σ) :
    (nthGo G n s).2 ≤ n + 1 ∧
    (nthGo G n s).1 =
      (match (runCollect G (n + 1) s).1[n]? with
       | some v => Except.ok v
       | none => Except.error insufficientMsg) := by
  induction n generalizing s with
  | zero =>
    cases h : G.pull s with
    | mk o s2 =>
      cases o with
      | none => simp [nthGo, runCollect, h]
      | some v => simp [nthGo, runCollect, h]
  | succ n ih =>
    cases h : G.pull s with
    | mk o s2 =>
      cases o with
      | none => simp [nthGo, runCollect, h]
      | some v =>
        obtain ⟨ihc, ihr⟩ := ih s2
        constructor
        · simp only [nthGo, h]
          omega
        · simp [nthGo, runCollect, h, ihr]

theorem reduceLoop_container {T U : Type} (acc : U → T → U) (fuel : Nat)
    (l : List T) (i : Nat) (r : U) (hf : l.length - i ≤ fuel) :
    reduceLoop (containerGenM T) acc fuel ⟨l, i⟩ r =
      (l.drop i).foldl acc r := by
  induction fuel generalizing i r with
  | zero =>
    have hd : l.drop i = [] := List.drop_eq_nil_of_le (by omega)
    simp [reduceLoop, hd]
  | succ m ih =>
    cases h : l[i]? with
    | none =>
      simp [reduceLoop, container_pull, h, getElem_none_drop h]
    | some v =>
      obtain ⟨hlt, hdrop⟩ := getElem_some_facts h
      simp [reduceLoop, container_pull, h, hdrop,
        ih (i + 1) (acc r v) (by omega)]

theorem reduceGo_container {T U : Type} (ident : T → U) (acc : U → T → U)
    (fuel : Nat) (l : List T) (hf : l.length ≤ fuel) :
    reduceGo (containerGenM T) ident acc fuel ⟨l, 0⟩ =
      (match l with
       | [] => Except.error emptyMsg
       | x :: xs => Except.ok (xs.foldl acc (ident x))) := by
  cases l with
  | nil => simp [reduceGo, container_pull]
  | cons x xs =>
    have h0 : (x :: xs)[0]? = some x := List.getElem?_cons_zero
    have h1 : (x :: xs).drop 1 = xs := rfl
    simp only [reduceGo, container_pull, h0]
    rw [reduceLoop_container acc fuel (x :: xs) 1 (ident x)
      (by simp at hf ⊢; omega), h1]

-- Claim theorems

/-- C1: every terminal `operator|` overload first copies the stream's stored
generator (`StreamGenerator gen(generator_)`) and consumes only the copy, so
the stored generator is left unconsumed and re-invoking the terminal
operation yields the identical result; moreover the `ContainerGenerator`
copy constructor resets the cursor, so consuming a copy (from any cursor
position) restarts from the container's first element, and a freshly built
`PackGenerator` has its cursor at the initial position, which its defaulted
copy constructor preserves. -/
theorem cppstream_terminal_restart :
    (∀ (σ T R : Type) (G : GenM σ T) (consume : σ → R) (s : σ),
      (runTerminal G consume s).2 = s ∧
      (runTerminal G consume ((runTerminal G consume s).2)).1 =
        (runTerminal G consume s).1) ∧
    (∀ (T : Type) (l : List T) (i fuel : Nat),
      (runCollect (containerGenM T) fuel ((containerGenM T).copy ⟨l, i⟩)).1 =
        l.take fuel) ∧
    (∀ (T : Type) (s : PackGen T) (v : T),
      (s.push v).current = 0 ∧ (packGenM T).copy (s.push v) = s.push v) := by
  refine ⟨fun σ T R G c s => ⟨rfl, rfl⟩, ?_, fun T s v => ⟨rfl, rfl⟩⟩
  intro T l i fuel
  show (runCollect (containerGenM T) fuel ⟨l, 0⟩).1 = l.take fuel
  simpa using runCollect_container fuel l 0

/-- C2: the `get` (take) combinator always yields a Finite-tagged stream
whatever the input tag, and it is the sole combinator changing the tag:
`skip`, `filter`, `map` and `group` return the input tag unchanged. -/
theorem cppstream_get_sole_tag_change :
    (∀ t : StreamTag, combinatorTag Combinator.get t = StreamTag.Finite) ∧
    (∀ (c : Combinator) (t : StreamTag),
      c ≠ Combinator.get → combinatorTag c t = t) ∧
    (∀ (c : Combinator) (t : StreamTag),
      combinatorTag c t ≠ t → c = Combinator.get) := by
  refine ⟨fun t => rfl, ?_, ?_⟩
  · intro c t hc
    cases c <;> simp_all [combinatorTag]
  · intro c t hc
    cases c <;> simp_all [combinatorTag]

theorem cppstream_get_sole_tag_change_witness :
    combinatorTag Combinator.get StreamTag.Infinite = StreamTag.Finite ∧
    combinatorTag Combinator.skip StreamTag.Infinite = StreamTag.Infinite :=
  ⟨cppstream_get_sole_tag_change.1 StreamTag.Infinite,
   cppstream_get_sole_tag_change.2.1 Combinator.skip StreamTag.Infinite
     (by decide)⟩

/-- C3: contrary to the fail-fast precondition the spec asks for, the `group`
constructor's size assert is commented out in the source, so `group(0)` is
accepted and — because `GroupGenerator::operator()` uses a do-while whose body
runs once before the `i < group_size_` test — it silently produces singleton
groups: on the stream `[1, 2, 3]`, collecting after `group(0)` yields
`[[1], [2], [3]]` instead of raising a precondition-violation error. -/
theorem cppstream_group_zero_silently_groups :
    groupStreamCollect ([1, 2, 3] : List Int) 0 4 = [[1], [2], [3]] := by
  decide

/-- C4: `nth(n)` performs at most `n + 1` pulls on the duplicated generator;
its result is the value at index `n` of the first `n + 1` collected values
when that many pulls succeed, and the insufficient-elements error otherwise
(raised only after attempting the pulls); `nth` carries no finiteness
`static_assert`, so it is permitted on Infinite-tagged streams. -/
theorem cppstream_nth_pull_bound_result (σ T : Type) (G : GenM σ T)
    (n : Nat) (s : σ) :
    (nthOp G n s).1.2 ≤ n + 1 ∧
    (nthOp G n s).1.1 =
      (match (runCollect G (n + 1) (G.copy s)).1[n]? with
       | some v => Except.ok v
       | none => Except.error insufficientMsg) ∧
    requiresFinite TerminalOp.nth = false := by
  obtain ⟨h1, h2⟩ := nthGo_spec G n (G.copy s)
  exact ⟨h1, h2, rfl⟩

/-- C5: `reduce(identity, accumulator)` on an exhausted-first-pull (empty)
stream fails with the empty-sequence error; otherwise it seeds with
`identity(first)` and folds left with `accumulator` over the remaining values
in pull order. -/
theorem cppstream_reduce_fold (T U : Type) (ident : T → U) (acc : U → T → U)
    (l : List T) (fuel : Nat) (hf : l.length ≤ fuel) :
    (reduceOp (containerGenM T) ident acc fuel ⟨l, 0⟩).1 =
      (match l with
       | [] => Except.error emptyMsg
       | x :: xs => Except.ok (xs.foldl acc (ident x))) := by
  show reduceGo (containerGenM T) ident acc fuel
    ((containerGenM T).copy ⟨l, 0⟩) = _
  exact reduceGo_container ident acc fuel l hf

theorem cppstream_reduce_fold_witness :
    (reduceOp (containerGenM Int) (fun x => 10 * x) (fun r v => r + 2 * v) 5
      ⟨[1, 2, 3, 4, 5], 0⟩).1 = Except.ok 38 :=
  (cppstream_reduce_fold Int Int (fun x => 10 * x) (fun r v => r + 2 * v)
    [1, 2, 3, 4, 5] 5 (by decide)).trans (by rfl)

/-- C6: the terminal operations `to_vector`, `sum`, `reduce` and `print_to`
carry a `static_assert` restricting them to Finite-tagged streams, so on an
Infinite-tagged stream an overload compiles iff it is `nth` — the only
terminal operation permitted on an Infinite-tagged stream; every overload
compiles on a Finite-tagged stream. -/
theorem cppstream_infinite_terminal_only_nth :
    (∀ op : TerminalOp,
      compiles StreamTag.Infinite op = true ↔ op = TerminalOp.nth) ∧
    (∀ op : TerminalOp, compiles StreamTag.Finite op = true) := by
  constructor
  · intro op
    cases op <;> simp [compiles, requiresFinite]
  · intro op
    cases op <;> simp [compiles]

theorem cppstream_infinite_terminal_only_nth_witness :
    compiles StreamTag.Infinite TerminalOp.nth = true ∧
    compiles StreamTag.Finite TerminalOp.sum = true :=
  ⟨(cppstream_infinite_terminal_only_nth.1 TerminalOp.nth).2 rfl,
   cppstream_infinite_terminal_only_nth.2 TerminalOp.sum⟩

/-- C7: for a finite stream of length `n` and group size `g ≥ 1`, `group(g)`
followed by collection yields exactly `⌈n / g⌉` groups, every group except
possibly the last has exactly `g` elements (and none exceeds `g`), no group
is empty, and concatenating the groups in order reconstructs the original
sequence. -/
theorem cppstream_group_chunks_spec (T : Type) (l : List T) (g fuel : Nat)
    (hg : 1 ≤ g) (hf : l.length + 1 ≤ fuel) :
    ((toVectorOp (groupGenM (containerGenM T)) fuel ⟨⟨l, 0⟩, g⟩).1).length =
        (l.length + g - 1) / g ∧
    (∀ c ∈ ((toVectorOp (groupGenM (containerGenM T)) fuel
        ⟨⟨l, 0⟩, g⟩).1).dropLast, c.length = g) ∧
    (∀ c ∈ (toVectorOp (groupGenM (containerGenM T)) fuel ⟨⟨l, 0⟩, g⟩).1,
      c ≠ [] ∧ c.length ≤ g) ∧
    ((toVectorOp (groupGenM (containerGenM T)) fuel
        ⟨⟨l, 0⟩, g⟩).1).flatten = l := by
  have hc : (toVectorOp (groupGenM (containerGenM T)) fuel ⟨⟨l, 0⟩, g⟩).1 =
      chunks g l := by
    show (runCollect (groupGenM (containerGenM T)) fuel
      ((groupGenM (containerGenM T)).copy ⟨⟨l, 0⟩, g⟩)).1 = chunks g l
    have := runCollect_group_container fuel l 0 g (by omega)
    simpa using this
  rw [hc]
  exact ⟨chunks_length g hg l.length l le_rfl,
    chunks_dropLast g hg l.length l le_rfl,
    chunks_mem g hg l.length l le_rfl,
    chunks_flatten g l.length l le_rfl⟩

theorem cppstream_group_chunks_spec_witness :
    (1 : Nat) ≤ 3 ∧ ([1, 2, 3, 4, 5] : List Int).length + 1 ≤ 6 ∧
    ((toVectorOp (groupGenM (containerGenM Int)) 6
        ⟨⟨[1, 2, 3, 4, 5], 0⟩, 3⟩).1).flatten = [1, 2, 3, 4, 5] :=
  ⟨by decide, by decide,
   (cppstream_group_chunks_spec Int [1, 2, 3, 4, 5] 3 6 (by decide)
     (by decide)).2.2.2⟩

/-- C8: `skip(k)` followed by collection on a finite stream of length `n`
yields the last `max(n - k, 0)` elements (the suffix after dropping `k`) in
order; the skip phase runs lazily on the first pull only — once the
`skipped_` flag is set every pull delegates directly to the parent. -/
theorem cppstream_skip_drop_spec (T : Type) (l : List T) (k fuel : Nat)
    (hf : l.length + 1 ≤ fuel) :
    (toVectorOp (skipGenM (containerGenM T)) fuel ⟨⟨l, 0⟩, k, false⟩).1 =
        l.drop k ∧
    (l.drop k).length = l.length - k ∧
    (∀ (σ : Type) (G : GenM σ T) (p : σ) (k2 : Nat),
      (skipGenM G).pull ⟨p, k2, true⟩ =
        ((G.pull p).1, ⟨(G.pull p).2, k2, true⟩)) := by
  refine ⟨?_, by simp, fun σ G p k2 => rfl⟩
  show (runCollect (skipGenM (containerGenM T)) fuel
    ((skipGenM (containerGenM T)).copy ⟨⟨l, 0⟩, k, false⟩)).1 = l.drop k
  exact skip_drop l k fuel hf

theorem cppstream_skip_drop_spec_witness :
    ([1, 2, 3, 4, 5] : List Int).length + 1 ≤ 6 ∧
    (toVectorOp (skipGenM (containerGenM Int)) 6
      ⟨⟨[1, 2, 3, 4, 5], 0⟩, 2, false⟩).1 = [3, 4, 5] :=
  ⟨by decide,
   ((cppstream_skip_drop_spec Int [1, 2, 3, 4, 5] 2 6 (by decide)).1).trans
     (by rfl)⟩

/-- C9: on an Infinite stream built from a zero-argument value generator,
`get(k)` (take) followed by collection yields exactly the first `k` values
produced by the generator in order; the infinite generator's pull always
returns an engaged value (wrapping the callable's next return value). -/
theorem cppstream_take_infinite_spec (T : Type) (f : Nat → T) (k fuel : Nat)
    (hf : k + 1 ≤ fuel) :
    (toVectorOp (getGenM (infiniteGenM T)) fuel ⟨⟨f, 0⟩, k, 0⟩).1 =
        (List.range k).map f ∧
    ((List.range k).map f).length = k ∧
    (∀ s : InfiniteGen T, ((infiniteGenM T).pull s).1 = some (s.fn s.calls)) := by
  refine ⟨?_, by simp, fun s => rfl⟩
  show (runCollect (getGenM (infiniteGenM T)) fuel
    ((getGenM (infiniteGenM T)).copy ⟨⟨f, 0⟩, k, 0⟩)).1 = (List.range k).map f
  have := runCollect_get_infinite fuel f 0 k 0 (by omega)
  simpa [List.range_eq_range'] using this

theorem cppstream_take_infinite_spec_witness :
    (3 : Nat) + 1 ≤ 4 ∧
    (toVectorOp (getGenM (infiniteGenM Nat)) 4
      ⟨⟨fun n => n, 0⟩, 3, 0⟩).1 = [0, 1, 2] :=
  ⟨by decide,
   ((cppstream_take_infinite_spec Nat (fun n => n) 3 4 (by decide)).1).trans
     (by rfl)⟩

/-- C10: on a finite stream of length `n`, `get(k)` (take) followed by
collection yields exactly the first `min(n, k)` elements in order; when `k`
exceeds `n` only the `n` available elements are produced and no error is
raised (the pull interface signals plain end-of-sequence). -/
theorem cppstream_take_finite_spec (T : Type) (l : List T) (k fuel : Nat)
    (hf : k + 1 ≤ fuel) :
    (toVectorOp (getGenM (containerGenM T)) fuel ⟨⟨l, 0⟩, k, 0⟩).1 =
        l.take k ∧
    (l.take k).length = min l.length k := by
  constructor
  · show (runCollect (getGenM (containerGenM T)) fuel
      ((getGenM (containerGenM T)).copy ⟨⟨l, 0⟩, k, 0⟩)).1 = l.take k
    have := runCollect_get_container fuel l 0 k 0 (by omega)
    simpa using this
  · simp [List.length_take, Nat.min_comm]

theorem cppstream_take_finite_spec_witness :
    (7 : Nat) + 1 ≤ 9 ∧
    (toVectorOp (getGenM (containerGenM Int)) 9
      ⟨⟨[1, 2, 3], 0⟩, 7, 0⟩).1 = [1, 2, 3] :=
  ⟨by decide,
   ((cppstream_take_finite_spec Int [1, 2, 3] 7 9 (by decide)).1).trans
     (by rfl)⟩

end CppStream
